import Mathlib

/-!
Shallow embedding of the TF-IDF search engine in `search_engine.py`.

Python dictionaries are modelled as insertion-ordered association lists,
Python floats as real numbers, and each method of the `SearchEngine` class
as a function over an explicit `EngineState`.
-/

namespace SearchEngineModel

/-- The six ASCII characters matched by Python's regex class `\s`. -/
def isPySpace (c : Char) : Bool :=
  c == ' ' || c == '\t' || c == '\n' || c == '\r' || c == '\x0b' || c == '\x0c'

/-- ASCII lower-casing, as `str.lower()` acts on the characters that survive
the later `[^a-z0-9\s]` filter. -/
def pyLower (c : Char) : Char :=
  if 'A' ≤ c ∧ c ≤ 'Z' then Char.ofNat (c.toNat + 32) else c

/-- A character kept by the substitution `re.sub(r'[^a-z0-9\s]', ' ', text)`
after lower-casing: an ASCII lower-case letter or digit. -/
def isKept (c : Char) : Bool :=
  ('a' ≤ c ∧ c ≤ 'z') || ('0' ≤ c ∧ c ≤ '9')

/-- `str.split()`: split on runs of whitespace, dropping empty fragments.
The accumulator holds the characters of the current word, reversed. -/
def splitWords : List Char → List Char → List String
  | [], acc => if acc.isEmpty then [] else [String.mk acc.reverse]
  | c :: cs, acc =>
    if isPySpace c then
      if acc.isEmpty then splitWords cs [] else String.mk acc.reverse :: splitWords cs []
    else
      splitWords cs (c :: acc)

/-- `SearchEngine._tokenize`: lower-case, replace every character that is not
an ASCII letter, digit or whitespace by a space, split on whitespace. -/
def tokenize (text : String) : List String :=
  let lowered := text.toList.map pyLower
  let cleaned := lowered.map (fun c => if isKept c || isPySpace c then c else ' ')
  splitWords cleaned []

/-- One entry `[document_id, positions]` of a posting list. -/
structure Posting where
  docId : Nat
  positions : List Nat
  deriving DecidableEq

/-- The `Document` dataclass. -/
structure Document where
  id : Nat
  title : String
  content : String
  deriving DecidableEq

/-- A result record produced by `SearchEngine.search`. -/
structure SearchResult where
  id : Nat
  title : String
  content : String
  snippet : String
  score : ℝ

/-- The record returned by `SearchEngine.get_stats`. -/
structure Stats where
  total_documents : Nat
  total_words_indexed : Nat
  unique_words : Nat
  average_words_per_document : ℝ

/-- The mutable state of a `SearchEngine` instance.  Python dicts (and the
two defaultdicts) are insertion-ordered association lists. -/
structure EngineState where
  inverted_index : List (String × List Posting)
  documents : List (Nat × Document)
  doc_word_counts : List (Nat × Nat)
  word_doc_frequency : List (String × Nat)
  next_doc_id : Nat

/-- `SearchEngine.__init__`. -/
def initState : EngineState :=
  { inverted_index := [], documents := [], doc_word_counts := [],
    word_doc_frequency := [], next_doc_id := 1 }

/-- First-match lookup in an association list, as Python dict lookup
(keys are unique in states reachable through the API). -/
def assocLookup {α β : Type} [DecidableEq α] : List (α × β) → α → Option β
  | [], _ => none
  | (k, v) :: rest, k0 => if k = k0 then some v else assocLookup rest k0

/-- The linear scan of `add_document` over a posting list: append `pos` to the
positions of the entry for `docId`, or create a fresh entry at the end. -/
def addPosting (docId pos : Nat) : List Posting → List Posting
  | [] => [⟨docId, [pos]⟩]
  | p :: ps =>
    if p.docId = docId then ⟨p.docId, p.positions ++ [pos]⟩ :: ps
    else p :: addPosting docId pos ps

/-- `self.inverted_index[word]` update (defaultdict): modify the posting list
of `w` in place, creating the key at the end on first touch. -/
def updateIndex (w : String) (docId pos : Nat) :
    List (String × List Posting) → List (String × List Posting)
  | [] => [(w, [⟨docId, [pos]⟩])]
  | (w0, ps) :: rest =>
    if w0 = w then (w0, addPosting docId pos ps) :: rest
    else (w0, ps) :: updateIndex w docId pos rest

/-- `self.word_doc_frequency[word] += 1` on a defaultdict(int). -/
def bumpDF (w : String) : List (String × Nat) → List (String × Nat)
  | [] => [(w, 1)]
  | (w0, n) :: rest =>
    if w0 = w then (w0, n + 1) :: rest else (w0, n) :: bumpDF w rest

/-- The indexing loop of `add_document`: walk the words with their positions,
tracking the per-call set of terms already seen for this document. -/
def processWords (docId : Nat) :
    List String → Nat → List String → List (String × List Posting) →
    List (String × Nat) → List (String × List Posting) × List (String × Nat)
  | [], _, _, inv, df => (inv, df)
  | w :: ws, pos, seen, inv, df =>
    let df1 := if w ∈ seen then df else bumpDF w df
    let seen1 := if w ∈ seen then seen else w :: seen
    processWords docId ws (pos + 1) seen1 (updateIndex w docId pos inv) df1

/-- `SearchEngine.add_document`: returns the new document id together with
the updated engine state. -/
def add_document (s : EngineState) (title content : String) : Nat × EngineState :=
  let docId := s.next_doc_id
  let words := tokenize content
  let r := processWords docId words 0 [] s.inverted_index s.word_doc_frequency
  (docId,
    { inverted_index := r.1,
      documents := s.documents ++ [(docId, ⟨docId, title, content⟩)],
      doc_word_counts := s.doc_word_counts ++ [(docId, words.length)],
      word_doc_frequency := r.2,
      next_doc_id := docId + 1 })

/-- Run a sequence of `add_document` calls on a fresh engine. -/
def buildEngine (ops : List (String × String)) : EngineState :=
  ops.foldl (fun s tc => (add_document s tc.1 tc.2).2) initState

/-- The posting list stored for a word (empty when the word is unknown). -/
def postingsIn (inv : List (String × List Posting)) (w : String) : List Posting :=
  (assocLookup inv w).getD []

/-- The posting list of a word in an engine state. -/
def postingsFor (s : EngineState) (w : String) : List Posting :=
  postingsIn s.inverted_index w

/-- The first posting of a list carrying the given document id, as the linear
scans in `_calculate_tf` and `add_document` find it. -/
def findPosting : List Posting → Nat → Option Posting
  | [], _ => none
  | p :: ps, d => if p.docId = d then some p else findPosting ps d

/-- `self.word_doc_frequency.get(word, 0)`. -/
def dfIn (df : List (String × Nat)) (w : String) : Nat :=
  (assocLookup df w).getD 0

/-- Term document-frequency of a word in an engine state. -/
def dfOf (s : EngineState) (w : String) : Nat :=
  dfIn s.word_doc_frequency w

/-- The occurrence count read by `_calculate_tf`: length of the positions list
of the first posting for (`w`, `docId`), or 0. -/
def occCount (s : EngineState) (w : String) (docId : Nat) : Nat :=
  match findPosting (postingsFor s w) docId with
  | none => 0
  | some p => p.positions.length

/-- `SearchEngine._calculate_tf`. -/
noncomputable def calculate_tf (s : EngineState) (word : String) (docId : Nat) : ℝ :=
  let word_count := occCount s word docId
  let total_words := (assocLookup s.doc_word_counts docId).getD 1
  if 0 < total_words then (word_count : ℝ) / (total_words : ℝ) else 0

/-- The body of `_calculate_idf` as a function of the total document count and
the document frequency of the word. -/
noncomputable def idfValue (totalDocs docsWithWord : Nat) : ℝ :=
  if totalDocs = 0 then 0
  else if docsWithWord = 0 then 0
  else Real.log ((totalDocs : ℝ) / (docsWithWord : ℝ))

/-- `SearchEngine._calculate_idf`. -/
noncomputable def calculate_idf (s : EngineState) (word : String) : ℝ :=
  idfValue s.documents.length (dfOf s word)

/-- `SearchEngine._calculate_tfidf`. -/
noncomputable def calculate_tfidf (s : EngineState) (word : String) (docId : Nat) : ℝ :=
  calculate_tf s word docId * calculate_idf s word

/-- Candidate generation of `search`: union of the document ids appearing in
the posting lists of the query words, deduplicated in first-seen order. -/
def candidateDocs (s : EngineState) (queryWords : List String) : List Nat :=
  queryWords.foldl
    (fun acc w =>
      match assocLookup s.inverted_index w with
      | none => acc
      | some ps => ps.foldl (fun a p => if p.docId ∈ a then a else a ++ [p.docId]) acc)
    []

/-- The score of one candidate document: sum of `_calculate_tfidf` over the
query words, repeats counted. -/
noncomputable def docScore (s : EngineState) (queryWords : List String) (docId : Nat) : ℝ :=
  queryWords.foldl (fun acc w => acc + calculate_tfidf s w docId) 0

/-- Python's `lst[:k]` for an arbitrary integer `k`: a negative `k` keeps all
but the last `|k|` elements. -/
def pySlice {α : Type} (k : Int) (l : List α) : List α :=
  if 0 ≤ k then l.take k.toNat else l.take (l.length - (-k).toNat)

/-- Python's `round(x, ndigits)` on a real value (ties at half-multiples
are modelled by `round`). -/
noncomputable def pyRound (ndigits : Nat) (x : ℝ) : ℝ :=
  ((round (x * (10 : ℝ) ^ ndigits) : ℤ) : ℝ) / (10 : ℝ) ^ ndigits

/-- The snippet of a result: first 200 characters of the content, with an
ellipsis marker when the content is longer. -/
def snippetOf (content : String) : String :=
  if content.length > 200 then String.mk (content.toList.take 200) ++ "..." else content

/-- Build one result record for a retained (doc id, score) pair. -/
noncomputable def mkResult (s : EngineState) (pr : Nat × ℝ) : SearchResult :=
  let doc := (assocLookup s.documents pr.1).getD ⟨0, "", ""⟩
  { id := pr.1, title := doc.title, content := doc.content,
    snippet := snippetOf doc.content, score := pyRound 4 pr.2 }

/-- The Boolean comparison used to sort candidates by descending score. -/
noncomputable def scoreDesc (a b : Nat × ℝ) : Bool :=
  decide (b.2 ≤ a.2)

/-- `SearchEngine.search`. -/
noncomputable def search (s : EngineState) (query : String) (top_k : Int) :
    List SearchResult :=
  let query_words := tokenize query
  if query_words = [] then []
  else
    let candidate_docs := candidateDocs s query_words
    if candidate_docs = [] then []
    else
      let doc_scores := candidate_docs.map (fun d => (d, docScore s query_words d))
      let sorted_docs := List.mergeSort doc_scores scoreDesc
      let top_docs := pySlice top_k sorted_docs
      top_docs.map (mkResult s)

/-- `SearchEngine.get_stats`. -/
noncomputable def get_stats (s : EngineState) : Stats :=
  let total_words := (s.doc_word_counts.map (fun kv => kv.2)).sum
  { total_documents := s.documents.length,
    total_words_indexed := total_words,
    unique_words := s.inverted_index.length,
    average_words_per_document :=
      if s.documents.length = 0 then 0
      else pyRound 2 ((total_words : ℝ) / (s.documents.length : ℝ)) }

/-- `SearchEngine.get_all_documents`: the stored records in insertion order. -/
def get_all_documents (s : EngineState) : List Document :=
  s.documents.map (fun kv => kv.2)

/-- `search` as a state-passing operation; the method reads but never writes
the engine state. -/
noncomputable def searchOp (s : EngineState) (q : String) (k : Int) :
    List SearchResult × EngineState :=
  (search s q k, s)

/-- `get_stats` as a state-passing operation; it reads but never writes. -/
noncomputable def get_statsOp (s : EngineState) : Stats × EngineState :=
  (get_stats s, s)

/-- Modelled from the spec: the Document Store operation `get(id)` is described
in the specification but absent from the source; it returns the stored record
for `id`, or signals NotFound (here `none`) when no such document exists. -/
def getDocument (s : EngineState) (id : Nat) : Option Document :=
  assocLookup s.documents id

/-! ### Association-list lemmas -/

theorem assocLookup_eq_none {α β : Type} [DecidableEq α] (l : List (α × β)) (k : α) :
    assocLookup l k = none ↔ k ∉ l.map Prod.fst := by
  induction l with
  | nil => simp [assocLookup]
  | cons kv rest ih =>
    obtain ⟨k0, v⟩ := kv
    by_cases h : k0 = k
    · subst h
      simp [assocLookup]
    · simp [assocLookup, h, ih, Ne.symm h]

theorem assocLookup_mem {α β : Type} [DecidableEq α] {l : List (α × β)} {k : α} {v : β}
    (h : assocLookup l k = some v) : (k, v) ∈ l := by
  induction l with
  | nil => simp [assocLookup] at h
  | cons kv rest ih =>
    obtain ⟨k0, v0⟩ := kv
    by_cases hk : k0 = k
    · subst hk
      simp [assocLookup] at h
      simp [h]
    · simp [assocLookup, hk] at h
      exact List.mem_cons_of_mem _ (ih h)

theorem mem_assocLookup {α β : Type} [DecidableEq α] {l : List (α × β)} {k : α} {v : β}
    (hnd : (l.map Prod.fst).Nodup) (h : (k, v) ∈ l) : assocLookup l k = some v := by
  induction l with
  | nil => simp at h
  | cons kv rest ih =>
    obtain ⟨k0, v0⟩ := kv
    simp only [List.map_cons, List.nodup_cons] at hnd
    rcases List.mem_cons.mp h with h1 | h1
    · rw [Prod.ext_iff] at h1
      obtain ⟨h1a, h1b⟩ := h1
      simp at h1a h1b
      subst h1a; subst h1b
      simp [assocLookup]
    · have hk : k0 ≠ k := by
        intro hkk
        subst hkk
        exact hnd.1 (List.mem_map.mpr ⟨(k0, v), h1, rfl⟩)
      simp [assocLookup, hk]
      exact ih hnd.2 h1

theorem assocLookup_append {α β : Type} [DecidableEq α] (l1 l2 : List (α × β)) (k : α) :
    assocLookup (l1 ++ l2) k =
      match assocLookup l1 k with
      | some v => some v
      | none => assocLookup l2 k := by
  induction l1 with
  | nil => simp [assocLookup]
  | cons kv rest ih =>
    obtain ⟨k0, v0⟩ := kv
    by_cases hk : k0 = k
    · subst hk
      simp [assocLookup]
    · simp [assocLookup, hk, ih]

/-! ### Posting-list lemmas -/

theorem findPosting_mem {ps : List Posting} {d : Nat} {p : Posting}
    (h : findPosting ps d = some p) : p ∈ ps ∧ p.docId = d := by
  induction ps with
  | nil => simp [findPosting] at h
  | cons q qs ih =>
    by_cases hq : q.docId = d
    · simp [findPosting, hq] at h
      subst h
      exact ⟨List.mem_cons_self _ _, hq⟩
    · simp [findPosting, hq] at h
      obtain ⟨h1, h2⟩ := ih h
      exact ⟨List.mem_cons_of_mem _ h1, h2⟩

theorem findPosting_eq_none {ps : List Posting} {d : Nat}
    (h : ∀ p ∈ ps, p.docId ≠ d) : findPosting ps d = none := by
  induction ps with
  | nil => rfl
  | cons q qs ih =>
    have hq : q.docId ≠ d := h q (List.mem_cons_self _ _)
    simp [findPosting, hq]
    exact ih (fun p hp => h p (List.mem_cons_of_mem _ hp))

theorem length_addPosting (docId pos : Nat) (ps : List Posting) :
    (addPosting docId pos ps).length =
      match findPosting ps docId with
      | some _ => ps.length
      | none => ps.length + 1 := by
  induction ps with
  | nil => rfl
  | cons q qs ih =>
    by_cases hq : q.docId = docId
    · simp [addPosting, findPosting, hq]
    · simp [addPosting, findPosting, hq, ih]
      cases findPosting qs docId <;> simp

theorem findPosting_addPosting_self (docId pos : Nat) (ps : List Posting) :
    findPosting (addPosting docId pos ps) docId =
      match findPosting ps docId with
      | some q => some ⟨docId, q.positions ++ [pos]⟩
      | none => some ⟨docId, [pos]⟩ := by
  induction ps with
  | nil => simp [addPosting, findPosting]
  | cons q qs ih =>
    by_cases hq : q.docId = docId
    · simp [addPosting, findPosting, hq]
    · simp [addPosting, findPosting, hq, ih]

theorem docIds_addPosting (docId pos : Nat) (ps : List Posting) :
    (addPosting docId pos ps).map Posting.docId =
      match findPosting ps docId with
      | some _ => ps.map Posting.docId
      | none => ps.map Posting.docId ++ [docId] := by
  induction ps with
  | nil => simp [addPosting, findPosting]
  | cons q qs ih =>
    by_cases hq : q.docId = docId
    · simp [addPosting, findPosting, hq]
    · simp only [addPosting, findPosting, hq, if_neg, if_false, List.map_cons, ih]
      cases findPosting qs docId <;> simp

theorem mem_addPosting {docId pos : Nat} {ps : List Posting} {q : Posting}
    (h : q ∈ addPosting docId pos ps) :
    q ∈ ps ∨ (q.docId = docId ∧ (q.positions = [pos] ∨
      ∃ q0, q0 ∈ ps ∧ q0.docId = docId ∧ q.positions = q0.positions ++ [pos])) := by
  induction ps with
  | nil =>
    simp [addPosting] at h
    subst h
    exact Or.inr ⟨rfl, Or.inl rfl⟩
  | cons p0 rest ih =>
    by_cases hp : p0.docId = docId
    · simp [addPosting, hp] at h
      rcases h with h | h
      · subst h
        exact Or.inr ⟨rfl, Or.inr ⟨p0, List.mem_cons_self _ _, hp, rfl⟩⟩
      · exact Or.inl (List.mem_cons_of_mem _ h)
    · simp [addPosting, hp] at h
      rcases h with h | h
      · subst h
        exact Or.inl (List.mem_cons_self _ _)
      · rcases ih h with h1 | ⟨h1, h2⟩
        · exact Or.inl (List.mem_cons_of_mem _ h1)
        · refine Or.inr ⟨h1, ?_⟩
          rcases h2 with h2 | ⟨q0, hq0, hq1, hq2⟩
          · exact Or.inl h2
          · exact Or.inr ⟨q0, List.mem_cons_of_mem _ hq0, hq1, hq2⟩

/-! ### Effect of one indexing step on lookups -/

theorem postingsIn_cons (w1 : String) (ps : List Posting)
    (rest : List (String × List Posting)) (w0 : String) :
    postingsIn ((w1, ps) :: rest) w0 = if w1 = w0 then ps else postingsIn rest w0 := by
  by_cases h : w1 = w0 <;> simp [postingsIn, assocLookup, h]

theorem dfIn_cons (w1 : String) (n : Nat) (rest : List (String × Nat)) (w0 : String) :
    dfIn ((w1, n) :: rest) w0 = if w1 = w0 then n else dfIn rest w0 := by
  by_cases h : w1 = w0 <;> simp [dfIn, assocLookup, h]

theorem postingsIn_updateIndex (inv : List (String × List Posting))
    (w w0 : String) (docId pos : Nat) :
    postingsIn (updateIndex w docId pos inv) w0 =
      if w0 = w then addPosting docId pos (postingsIn inv w) else postingsIn inv w0 := by
  induction inv with
  | nil =>
    by_cases h : w0 = w
    · subst h
      simp [updateIndex, postingsIn, assocLookup, addPosting]
    · simp [updateIndex, postingsIn, assocLookup, Ne.symm h, h]
  | cons kv rest ih =>
    obtain ⟨w1, ps⟩ := kv
    by_cases h1 : w1 = w
    · subst h1
      simp only [updateIndex, if_pos rfl, postingsIn_cons]
      by_cases h2 : w1 = w0
      · subst h2
        simp [postingsIn_cons]
      · simp [postingsIn_cons, h2, Ne.symm h2]
    · simp only [updateIndex, if_neg h1, postingsIn_cons]
      by_cases h2 : w1 = w0
      · subst h2
        have hne : ¬ w1 = w := h1
        simp [hne]
      · simp only [if_neg h2, ih, if_neg h1]

theorem dfIn_bumpDF (df : List (String × Nat)) (w w0 : String) :
    dfIn (bumpDF w df) w0 = if w0 = w then dfIn df w + 1 else dfIn df w0 := by
  induction df with
  | nil =>
    by_cases h : w0 = w
    · subst h
      simp [bumpDF, dfIn, assocLookup]
    · simp [bumpDF, dfIn, assocLookup, Ne.symm h, h]
  | cons kv rest ih =>
    obtain ⟨w1, n⟩ := kv
    by_cases h1 : w1 = w
    · subst h1
      simp only [bumpDF, if_pos rfl, dfIn_cons]
      by_cases h2 : w1 = w0
      · subst h2
        simp [dfIn_cons]
      · simp [dfIn_cons, h2, Ne.symm h2]
    · simp only [bumpDF, if_neg h1, dfIn_cons]
      by_cases h2 : w1 = w0
      · subst h2
        have hne : ¬ w1 = w := h1
        simp [hne]
      · simp only [if_neg h2, ih, if_neg h1]

/-! ### Invariant carried through the indexing loop of `add_document`

Relative to the index `inv0` and frequency table `df0` holding at the start of
the call, with `rem` words still to process out of `totalLen` in total. -/

structure LoopInv (docId totalLen : Nat) (wordsAll : List String) (rem : Nat)
    (seen : List String) (inv : List (String × List Posting))
    (df : List (String × Nat)) (inv0 : List (String × List Posting))
    (df0 : List (String × Nat)) : Prop where
  unseen_df : ∀ w, w ∉ seen → dfIn df w = dfIn df0 w
  unseen_post : ∀ w, w ∉ seen → postingsIn inv w = postingsIn inv0 w
  seen_df : ∀ w, w ∈ seen → dfIn df w = dfIn df0 w + 1
  seen_len : ∀ w, w ∈ seen →
      (postingsIn inv w).length = (postingsIn inv0 w).length + 1
  seen_find : ∀ w, w ∈ seen → ∃ q, findPosting (postingsIn inv w) docId = some q ∧
      q.positions.length + rem ≤ totalLen
  new_post : ∀ w q, q ∈ postingsIn inv w → q ∈ postingsIn inv0 w ∨
      (q.docId = docId ∧ q.positions.length + rem ≤ totalLen ∧ w ∈ wordsAll)
  seen_sub : ∀ w, w ∈ seen → w ∈ wordsAll
  rem_le : rem ≤ totalLen
  nodup_ids : ∀ w, ((postingsIn inv w).map Posting.docId).Nodup

theorem processWords_inv (docId totalLen : Nat) (wordsAll : List String)
    (inv0 : List (String × List Posting)) (df0 : List (String × Nat))
    (hfresh : ∀ w q, q ∈ postingsIn inv0 w → q.docId ≠ docId)
    (ws : List String) :
    ∀ (pos : Nat) (seen : List String) (inv : List (String × List Posting))
      (df : List (String × Nat)),
      (∀ w ∈ ws, w ∈ wordsAll) →
      LoopInv docId totalLen wordsAll ws.length seen inv df inv0 df0 →
      ∃ seenF,
        LoopInv docId totalLen wordsAll 0 seenF
          (processWords docId ws pos seen inv df).1
          (processWords docId ws pos seen inv df).2 inv0 df0 := by
  induction ws with
  | nil =>
    intro pos seen inv df hsub hI
    exact ⟨seen, hI⟩
  | cons w ws ih =>
    intro pos seen inv df hsub hI
    have hwAll : w ∈ wordsAll := hsub w (List.mem_cons_self _ _)
    have hrem : ws.length + 1 ≤ totalLen := hI.rem_le
    by_cases hw : w ∈ seen
    · have hstep : processWords docId (w :: ws) pos seen inv df
          = processWords docId ws (pos + 1) seen (updateIndex w docId pos inv) df := by
        simp [processWords, hw]
      rw [hstep]
      refine ih (pos + 1) seen _ df (fun v hv => hsub v (List.mem_cons_of_mem _ hv)) ?_
      obtain ⟨q0, hq0find, hq0len⟩ := hI.seen_find w hw
      have hq0mem := findPosting_mem hq0find
      refine ⟨hI.unseen_df, ?_, hI.seen_df, ?_, ?_, ?_, hI.seen_sub, ?_, ?_⟩
      · intro v hv
        have hvw : v ≠ w := fun hc => hv (hc ▸ hw)
        rw [postingsIn_updateIndex, if_neg hvw]
        exact hI.unseen_post v hv
      · intro v hv
        rw [postingsIn_updateIndex]
        by_cases hvw : v = w
        · subst hvw
          rw [if_pos rfl, length_addPosting, hq0find]
          exact hI.seen_len v hv
        · rw [if_neg hvw]
          exact hI.seen_len v hv
      · intro v hv
        rw [postingsIn_updateIndex]
        by_cases hvw : v = w
        · subst hvw
          rw [if_pos rfl, findPosting_addPosting_self, hq0find]
          refine ⟨_, rfl, ?_⟩
          simp only [List.length_append, List.length_singleton]
          simp only [List.length_cons] at hq0len
          omega
        · rw [if_neg hvw]
          obtain ⟨q, hqf, hqlen⟩ := hI.seen_find v hv
          simp only [List.length_cons] at hqlen
          exact ⟨q, hqf, by omega⟩
      · intro v q hq
        rw [postingsIn_updateIndex] at hq
        by_cases hvw : v = w
        · subst hvw
          rw [if_pos rfl] at hq
          rcases mem_addPosting hq with hmem | ⟨hdoc, hpos⟩
          · rcases hI.new_post v q hmem with h0 | ⟨h1, h2, h3⟩
            · exact Or.inl h0
            · simp only [List.length_cons] at h2
              exact Or.inr ⟨h1, by omega, h3⟩
          · rcases hpos with hpos | ⟨q0a, hq0a, hq0b, hq0c⟩
            · refine Or.inr ⟨hdoc, ?_, hwAll⟩
              rw [hpos]
              simp only [List.length_singleton]
              omega
            · rcases hI.new_post v q0a hq0a with h0 | ⟨h1, h2, h3⟩
              · exact absurd hq0b (hfresh v q0a h0)
              · refine Or.inr ⟨hdoc, ?_, hwAll⟩
                rw [hq0c]
                simp only [List.length_append, List.length_singleton]
                simp only [List.length_cons] at h2
                omega
        · rw [if_neg hvw] at hq
          rcases hI.new_post v q hq with h0 | ⟨h1, h2, h3⟩
          · exact Or.inl h0
          · simp only [List.length_cons] at h2
            exact Or.inr ⟨h1, by omega, h3⟩
      · omega
      · intro v
        rw [postingsIn_updateIndex]
        by_cases hvw : v = w
        · subst hvw
          rw [if_pos rfl, docIds_addPosting, hq0find]
          exact hI.nodup_ids v
        · rw [if_neg hvw]
          exact hI.nodup_ids v
    · have hstep : processWords docId (w :: ws) pos seen inv df
          = processWords docId ws (pos + 1) (w :: seen) (updateIndex w docId pos inv)
              (bumpDF w df) := by
        simp [processWords, hw]
      rw [hstep]
      refine ih (pos + 1) (w :: seen) _ _
        (fun v hv => hsub v (List.mem_cons_of_mem _ hv)) ?_
      have hpostw : postingsIn inv w = postingsIn inv0 w := hI.unseen_post w hw
      have hfindw : findPosting (postingsIn inv w) docId = none := by
        rw [hpostw]
        exact findPosting_eq_none (fun p hp => hfresh w p hp)
      refine ⟨?_, ?_, ?_, ?_, ?_, ?_, ?_, ?_, ?_⟩
      · intro v hv
        have hvw : v ≠ w := fun hc => hv (hc ▸ List.mem_cons_self _ _)
        have hvs : v ∉ seen := fun hc => hv (List.mem_cons_of_mem _ hc)
        rw [dfIn_bumpDF, if_neg hvw]
        exact hI.unseen_df v hvs
      · intro v hv
        have hvw : v ≠ w := fun hc => hv (hc ▸ List.mem_cons_self _ _)
        have hvs : v ∉ seen := fun hc => hv (List.mem_cons_of_mem _ hc)
        rw [postingsIn_updateIndex, if_neg hvw]
        exact hI.unseen_post v hvs
      · intro v hv
        rcases List.mem_cons.mp hv with hveq | hvs
        · subst hveq
          rw [dfIn_bumpDF, if_pos rfl, hI.unseen_df v hw]
        · have hvw : v ≠ w := fun hc => hw (hc ▸ hvs)
          rw [dfIn_bumpDF, if_neg hvw]
          exact hI.seen_df v hvs
      · intro v hv
        rcases List.mem_cons.mp hv with hveq | hvs
        · subst hveq
          rw [postingsIn_updateIndex, if_pos rfl, length_addPosting, hfindw, hpostw]
        · have hvw : v ≠ w := fun hc => hw (hc ▸ hvs)
          rw [postingsIn_updateIndex, if_neg hvw]
          exact hI.seen_len v hvs
      · intro v hv
        rcases List.mem_cons.mp hv with hveq | hvs
        · subst hveq
          rw [postingsIn_updateIndex, if_pos rfl, findPosting_addPosting_self, hfindw]
          refine ⟨_, rfl, ?_⟩
          simp only [List.length_singleton]
          omega
        · have hvw : v ≠ w := fun hc => hw (hc ▸ hvs)
          rw [postingsIn_updateIndex, if_neg hvw]
          obtain ⟨q, hqf, hqlen⟩ := hI.seen_find v hvs
          simp only [List.length_cons] at hqlen
          exact ⟨q, hqf, by omega⟩
      · intro v q hq
        rw [postingsIn_updateIndex] at hq
        by_cases hvw : v = w
        · subst hvw
          rw [if_pos rfl] at hq
          rcases mem_addPosting hq with hmem | ⟨hdoc, hpos⟩
          · rcases hI.new_post v q hmem with h0 | ⟨h1, h2, h3⟩
            · exact Or.inl h0
            · simp only [List.length_cons] at h2
              exact Or.inr ⟨h1, by omega, h3⟩
          · rcases hpos with hpos | ⟨q0a, hq0a, hq0b, hq0c⟩
            · refine Or.inr ⟨hdoc, ?_, hwAll⟩
              rw [hpos]
              simp only [List.length_singleton]
              omega
            · rw [hpostw] at hq0a
              exact absurd hq0b (hfresh v q0a hq0a)
        · rw [if_neg hvw] at hq
          rcases hI.new_post v q hq with h0 | ⟨h1, h2, h3⟩
          · exact Or.inl h0
          · simp only [List.length_cons] at h2
            exact Or.inr ⟨h1, by omega, h3⟩
      · intro v hv
        rcases List.mem_cons.mp hv with hveq | hvs
        · subst hveq
          exact hwAll
        · exact hI.seen_sub v hvs
      · omega
      · intro v
        rw [postingsIn_updateIndex]
        by_cases hvw : v = w
        · subst hvw
          rw [if_pos rfl, docIds_addPosting, hfindw, hpostw]
          simp only [List.nodup_append, List.nodup_singleton, List.disjoint_singleton]
          refine ⟨?_, ?_, ?_⟩
          · have := hI.nodup_ids v
            rwa [hpostw] at this
          · trivial
          · intro hmem
            obtain ⟨q1, hq1, hq2⟩ := List.mem_map.mp hmem
            exact hfresh v q1 hq1 hq2
        · rw [if_neg hvw]
          exact hI.nodup_ids v

/-! ### Well-formedness of reachable engine states -/

structure WF (s : EngineState) : Prop where
  df_eq : ∀ w, dfOf s w = (postingsFor s w).length
  df_le : ∀ w, dfOf s w ≤ s.documents.length
  posting_lt : ∀ w q, q ∈ postingsFor s w → q.docId < s.next_doc_id
  posting_wc : ∀ w q, q ∈ postingsFor s w →
      ∃ n, assocLookup s.doc_word_counts q.docId = some n ∧ q.positions.length ≤ n
  posting_doc : ∀ w q, q ∈ postingsFor s w →
      ∃ d, assocLookup s.documents q.docId = some d ∧ w ∈ tokenize d.content
  doc_keys : s.documents.map Prod.fst = List.range' 1 s.documents.length
  doc_ids : ∀ kd ∈ s.documents, kd.2.id = kd.1
  wc_keys : s.doc_word_counts.map Prod.fst = List.range' 1 s.documents.length
  next_id : s.next_doc_id = s.documents.length + 1
  posting_nodup : ∀ w, ((postingsFor s w).map Posting.docId).Nodup

theorem WF_init : WF initState := by
  refine ⟨?_, ?_, ?_, ?_, ?_, ?_, ?_, ?_, ?_, ?_⟩ <;>
    simp [initState, dfOf, dfIn, postingsFor, postingsIn, assocLookup, List.range']

theorem WF_add (s : EngineState) (title content : String) (hWF : WF s) :
    WF (add_document s title content).2 := by
  have hfresh : ∀ w q, q ∈ postingsIn s.inverted_index w → q.docId ≠ s.next_doc_id :=
    fun w q hq => Nat.ne_of_lt (hWF.posting_lt w q hq)
  obtain ⟨seenF, hL⟩ := processWords_inv s.next_doc_id (tokenize content).length
      (tokenize content) s.inverted_index s.word_doc_frequency hfresh
      (tokenize content) 0 [] s.inverted_index s.word_doc_frequency
      (fun w hw => hw)
      ⟨fun w _ => rfl, fun w _ => rfl,
       fun w hw => absurd hw (List.not_mem_nil w),
       fun w hw => absurd hw (List.not_mem_nil w),
       fun w hw => absurd hw (List.not_mem_nil w),
       fun w q hq => Or.inl hq,
       fun w hw => absurd hw (List.not_mem_nil w),
       Nat.le_refl _,
       fun w => hWF.posting_nodup w⟩
  have hN : s.next_doc_id = s.documents.length + 1 := hWF.next_id
  have hwcnone : assocLookup s.doc_word_counts s.next_doc_id = none := by
    rw [assocLookup_eq_none, hWF.wc_keys]
    simp only [List.mem_range']
    rintro ⟨i, hi, hEq⟩
    omega
  have hdocnone : assocLookup s.documents s.next_doc_id = none := by
    rw [assocLookup_eq_none, hWF.doc_keys]
    simp only [List.mem_range']
    rintro ⟨i, hi, hEq⟩
    omega
  refine ⟨?_, ?_, ?_, ?_, ?_, ?_, ?_, ?_, ?_, ?_⟩
  · intro w
    show dfIn (processWords s.next_doc_id (tokenize content) 0 []
        s.inverted_index s.word_doc_frequency).2 w
      = (postingsIn (processWords s.next_doc_id (tokenize content) 0 []
        s.inverted_index s.word_doc_frequency).1 w).length
    by_cases hw : w ∈ seenF
    · rw [hL.seen_df w hw, hL.seen_len w hw]
      exact congrArg (fun n => n + 1) (hWF.df_eq w)
    · rw [hL.unseen_df w hw, hL.unseen_post w hw]
      exact hWF.df_eq w
  · intro w
    show dfIn (processWords s.next_doc_id (tokenize content) 0 []
        s.inverted_index s.word_doc_frequency).2 w
      ≤ (s.documents ++ [(s.next_doc_id, Document.mk s.next_doc_id title content)]).length
    rw [List.length_append]
    have hle : dfIn s.word_doc_frequency w ≤ s.documents.length := hWF.df_le w
    by_cases hw : w ∈ seenF
    · rw [hL.seen_df w hw]
      simp only [List.length_singleton]
      omega
    · rw [hL.unseen_df w hw]
      simp only [List.length_singleton]
      omega
  · intro w q hq
    show q.docId < s.next_doc_id + 1
    rcases hL.new_post w q hq with h0 | ⟨h1, _, _⟩
    · have := hWF.posting_lt w q h0
      omega
    · omega
  · intro w q hq
    rcases hL.new_post w q hq with h0 | ⟨h1, h2, h3⟩
    · obtain ⟨n, hn1, hn2⟩ := hWF.posting_wc w q h0
      refine ⟨n, ?_, hn2⟩
      show assocLookup (s.doc_word_counts
          ++ [(s.next_doc_id, (tokenize content).length)]) q.docId = some n
      rw [assocLookup_append, hn1]
    · refine ⟨(tokenize content).length, ?_, by omega⟩
      show assocLookup (s.doc_word_counts
          ++ [(s.next_doc_id, (tokenize content).length)]) q.docId = some _
      rw [h1, assocLookup_append, hwcnone]
      simp [assocLookup]
  · intro w q hq
    rcases hL.new_post w q hq with h0 | ⟨h1, h2, h3⟩
    · obtain ⟨d, hd1, hd2⟩ := hWF.posting_doc w q h0
      refine ⟨d, ?_, hd2⟩
      show assocLookup (s.documents
          ++ [(s.next_doc_id, Document.mk s.next_doc_id title content)]) q.docId = some d
      rw [assocLookup_append, hd1]
    · refine ⟨Document.mk s.next_doc_id title content, ?_, h3⟩
      show assocLookup (s.documents
          ++ [(s.next_doc_id, Document.mk s.next_doc_id title content)]) q.docId = some _
      rw [h1, assocLookup_append, hdocnone]
      simp [assocLookup]
  · show (s.documents ++ [(s.next_doc_id, Document.mk s.next_doc_id title content)]).map Prod.fst
      = List.range' 1 (s.documents ++ [(s.next_doc_id, Document.mk s.next_doc_id title content)]).length
    rw [List.map_append, hWF.doc_keys, List.length_append]
    simp only [List.map_cons, List.map_nil, List.length_singleton]
    rw [List.range'_1_concat]
    congr 2
    omega
  · intro kd hkd
    rcases List.mem_append.mp hkd with h0 | h0
    · exact hWF.doc_ids kd h0
    · simp at h0
      subst h0
      rfl
  · show (s.doc_word_counts ++ [(s.next_doc_id, (tokenize content).length)]).map Prod.fst
      = List.range' 1 (s.documents ++ [(s.next_doc_id, Document.mk s.next_doc_id title content)]).length
    rw [List.map_append, hWF.wc_keys, List.length_append]
    simp only [List.map_cons, List.map_nil, List.length_singleton]
    rw [List.range'_1_concat]
    congr 2
    omega
  · show s.next_doc_id + 1 = (s.documents ++ [(s.next_doc_id, Document.mk s.next_doc_id title content)]).length + 1
    rw [List.length_append]
    simp only [List.length_singleton]
    omega
  · intro w
    show ((postingsIn (processWords s.next_doc_id (tokenize content) 0 []
        s.inverted_index s.word_doc_frequency).1 w).map Posting.docId).Nodup
    exact hL.nodup_ids w

theorem WF_buildEngine (ops : List (String × String)) : WF (buildEngine ops) := by
  suffices h : ∀ (l : List (String × String)) (s : EngineState), WF s →
      WF (l.foldl (fun s tc => (add_document s tc.1 tc.2).2) s) from
    h ops initState WF_init
  intro l
  induction l with
  | nil => intro s hs; exact hs
  | cons a l ih =>
    intro s hs
    exact ih _ (WF_add s a.1 a.2 hs)

/-! ### Lemmas about the query path -/

theorem search_eq_empty_of_no_words (s : EngineState) (q : String) (k : Int)
    (h : tokenize q = []) : search s q k = [] := by
  simp [search, h]

theorem search_eq_empty_of_no_cands (s : EngineState) (q : String) (k : Int)
    (h : candidateDocs s (tokenize q) = []) : search s q k = [] := by
  by_cases h1 : tokenize q = []
  · simp [search, h1]
  · simp [search, h1, h]

theorem search_eq_of_ne (s : EngineState) (q : String) (k : Int)
    (h1 : tokenize q ≠ []) (h2 : candidateDocs s (tokenize q) ≠ []) :
    search s q k = (pySlice k (List.mergeSort
        ((candidateDocs s (tokenize q)).map (fun d => (d, docScore s (tokenize q) d)))
        scoreDesc)).map (mkResult s) := by
  simp [search, h1, h2]

theorem pySlice_sublist {α : Type} (k : Int) (l : List α) :
    List.Sublist (pySlice k l) l := by
  unfold pySlice
  split <;> exact List.take_sublist _ _

theorem pySlice_length {α : Type} (k : Int) (l : List α) :
    (pySlice k l).length =
      if 0 ≤ k then min k.toNat l.length else l.length - (-k).toNat := by
  unfold pySlice
  split
  · rw [List.length_take]
  · rw [List.length_take]
    omega

theorem search_length (s : EngineState) (q : String) (k : Int)
    (h1 : tokenize q ≠ []) (h2 : candidateDocs s (tokenize q) ≠ []) :
    (search s q k).length =
      if 0 ≤ k then min k.toNat (candidateDocs s (tokenize q)).length
      else (candidateDocs s (tokenize q)).length - (-k).toNat := by
  rw [search_eq_of_ne s q k h1 h2, List.length_map, pySlice_length,
    List.length_mergeSort, List.length_map]

theorem mem_addCands {d : Nat} {ps : List Posting} :
    ∀ {acc : List Nat},
      d ∈ ps.foldl (fun a p => if p.docId ∈ a then a else a ++ [p.docId]) acc →
      d ∈ acc ∨ ∃ p ∈ ps, p.docId = d := by
  induction ps with
  | nil =>
    intro acc h
    exact Or.inl h
  | cons p ps ih =>
    intro acc h
    rw [List.foldl_cons] at h
    rcases ih h with h0 | ⟨p1, hp1, hp2⟩
    · have h1 : d ∈ (if p.docId ∈ acc then acc else acc ++ [p.docId]) := h0
      by_cases hmem : p.docId ∈ acc
      · rw [if_pos hmem] at h1
        exact Or.inl h1
      · rw [if_neg hmem] at h1
        rcases List.mem_append.mp h1 with h3 | h3
        · exact Or.inl h3
        · simp at h3
          exact Or.inr ⟨p, List.mem_cons_self _ _, h3.symm⟩
    · exact Or.inr ⟨p1, List.mem_cons_of_mem _ hp1, hp2⟩

theorem mem_candidateDocs {s : EngineState} {qws : List String} {d : Nat}
    (h : d ∈ candidateDocs s qws) :
    ∃ w ∈ qws, ∃ p ∈ postingsFor s w, p.docId = d := by
  suffices haux : ∀ (l : List String) (acc : List Nat),
      d ∈ l.foldl (fun acc w =>
        match assocLookup s.inverted_index w with
        | none => acc
        | some ps => ps.foldl (fun a p => if p.docId ∈ a then a else a ++ [p.docId]) acc) acc →
      d ∈ acc ∨ ∃ w ∈ l, ∃ p ∈ postingsFor s w, p.docId = d by
    rcases haux qws [] h with h0 | h0
    · simp at h0
    · exact h0
  intro l
  induction l with
  | nil =>
    intro acc h0
    exact Or.inl h0
  | cons w l ih =>
    intro acc h0
    rw [List.foldl_cons] at h0
    rcases ih _ h0 with h3 | ⟨w1, hw1, hp⟩
    · rcases hlook : assocLookup s.inverted_index w with _ | ps
      · rw [hlook] at h3
        exact Or.inl h3
      · rw [hlook] at h3
        rcases mem_addCands h3 with h4 | ⟨p, hp1, hp2⟩
        · exact Or.inl h4
        · refine Or.inr ⟨w, List.mem_cons_self _ _, p, ?_, hp2⟩
          rw [postingsFor, postingsIn, hlook]
          exact hp1
    · exact Or.inr ⟨w1, List.mem_cons_of_mem _ hw1, hp⟩

theorem mem_search {s : EngineState} {q : String} {k : Int} {r : SearchResult}
    (h : r ∈ search s q k) :
    ∃ d, d ∈ candidateDocs s (tokenize q) ∧
      r = mkResult s (d, docScore s (tokenize q) d) := by
  by_cases h1 : tokenize q = []
  · rw [search_eq_empty_of_no_words s q k h1] at h
    simp at h
  by_cases h2 : candidateDocs s (tokenize q) = []
  · rw [search_eq_empty_of_no_cands s q k h2] at h
    simp at h
  rw [search_eq_of_ne s q k h1 h2] at h
  obtain ⟨pr, hpr, hr⟩ := List.mem_map.mp h
  have hpr2 : pr ∈ List.mergeSort
      ((candidateDocs s (tokenize q)).map (fun d => (d, docScore s (tokenize q) d)))
      scoreDesc := (pySlice_sublist k _).subset hpr
  rw [List.mem_mergeSort] at hpr2
  obtain ⟨d, hd, hdr⟩ := List.mem_map.mp hpr2
  exact ⟨d, hd, by rw [← hr, ← hdr]⟩

/-! ### Arithmetic lemmas about scores -/

theorem pyRound_mono (n : Nat) {x y : ℝ} (h : x ≤ y) : pyRound n x ≤ pyRound n y := by
  unfold pyRound
  have hpow : (0:ℝ) < (10:ℝ) ^ n := by positivity
  apply div_le_div_of_nonneg_right ?_ hpow.le
  have : round (x * (10:ℝ) ^ n) ≤ round (y * (10:ℝ) ^ n) := by
    rw [round_eq, round_eq]
    exact Int.floor_le_floor (by nlinarith)
  exact_mod_cast this

theorem pyRound_nonneg (n : Nat) {x : ℝ} (hx : 0 ≤ x) : 0 ≤ pyRound n x := by
  unfold pyRound
  apply div_nonneg ?_ (by positivity)
  have : (0:ℤ) ≤ round (x * (10:ℝ) ^ n) := by
    rw [round_eq]
    apply Int.floor_nonneg.mpr
    positivity
  exact_mod_cast this

theorem calculate_tf_nonneg (s : EngineState) (w : String) (d : Nat) :
    0 ≤ calculate_tf s w d := by
  simp only [calculate_tf]
  split
  · positivity
  · exact le_refl 0

theorem idfValue_nonneg {N df : Nat} (h : df ≤ N) : 0 ≤ idfValue N df := by
  unfold idfValue
  by_cases hN : N = 0
  · simp [hN]
  rw [if_neg hN]
  by_cases hdf : df = 0
  · simp [hdf]
  rw [if_neg hdf]
  apply Real.log_nonneg
  rw [one_le_div (by exact_mod_cast Nat.pos_of_ne_zero hdf)]
  exact_mod_cast h

theorem calculate_idf_nonneg (s : EngineState) (hWF : WF s) (w : String) :
    0 ≤ calculate_idf s w :=
  idfValue_nonneg (hWF.df_le w)

theorem docScore_nonneg (s : EngineState) (hWF : WF s) (qws : List String) (d : Nat) :
    0 ≤ docScore s qws d := by
  unfold docScore
  suffices haux : ∀ (l : List String) (init : ℝ), 0 ≤ init →
      0 ≤ l.foldl (fun acc w => acc + calculate_tfidf s w d) init from
    haux qws 0 (le_refl 0)
  intro l
  induction l with
  | nil => intro init h; exact h
  | cons w l ih =>
    intro init h
    rw [List.foldl_cons]
    apply ih
    have htf := calculate_tf_nonneg s w d
    have hidf := calculate_idf_nonneg s hWF w
    have : 0 ≤ calculate_tfidf s w d := mul_nonneg htf hidf
    linarith

/-! ### Claim theorems -/

/-- C2: the Document Store `get(id)` operation returns the stored record when a
document with that id exists, and signals NotFound (`none`) exactly when no
document with that id exists. -/
theorem searchEngine_C2 (ops : List (String × String)) (id : Nat) :
    (∀ d, (id, d) ∈ (buildEngine ops).documents →
      getDocument (buildEngine ops) id = some d) ∧
    (∀ d, getDocument (buildEngine ops) id = some d →
      (id, d) ∈ (buildEngine ops).documents) ∧
    (getDocument (buildEngine ops) id = none ↔
      ∀ d, (id, d) ∉ (buildEngine ops).documents) := by
  have hWF := WF_buildEngine ops
  have hnd : ((buildEngine ops).documents.map Prod.fst).Nodup := by
    rw [hWF.doc_keys]
    exact List.nodup_range' 1 _
  simp only [getDocument]
  refine ⟨?_, ?_, ?_⟩
  · intro d hd
    exact mem_assocLookup hnd hd
  · intro d hd
    exact assocLookup_mem hd
  · constructor
    · intro hnone d hd
      rw [mem_assocLookup hnd hd] at hnone
      exact Option.noConfusion hnone
    · intro hall
      rw [assocLookup_eq_none]
      intro hk
      obtain ⟨kv, hkv, hfst⟩ := List.mem_map.mp hk
      obtain ⟨k, v⟩ := kv
      simp at hfst
      subst hfst
      exact hall v hkv

/-- C2 witness: on the engine holding one document, `getDocument` finds id 1. -/
theorem searchEngine_C2_witness :
    getDocument (buildEngine [("t", "hello world")]) 1
      = some (Document.mk 1 "t" "hello world") ∧
    (1, Document.mk 1 "t" "hello world") ∈ (buildEngine [("t", "hello world")]).documents :=
  ⟨(searchEngine_C2 [("t", "hello world")] 1).1 (Document.mk 1 "t" "hello world")
      (by decide),
   (searchEngine_C2 [("t", "hello world")] 1).2.1 (Document.mk 1 "t" "hello world")
      (by decide)⟩

/-- C4: after any sequence of `add_document` calls, the term document-frequency
of every term equals the number of postings stored for it, and no term holds
two postings for the same document. -/
theorem searchEngine_C4 (ops : List (String × String)) (w : String) :
    dfOf (buildEngine ops) w = (postingsFor (buildEngine ops) w).length ∧
    ((postingsFor (buildEngine ops) w).map Posting.docId).Nodup :=
  ⟨(WF_buildEngine ops).df_eq w, (WF_buildEngine ops).posting_nodup w⟩

/-- C5: in every reachable state, `_calculate_tf` lies in `[0, 1]` for every
term and document id, and the occurrence count stored in a posting never
exceeds the recorded word count of its document. -/
theorem searchEngine_C5 (ops : List (String × String)) (w : String) (d : Nat) :
    0 ≤ calculate_tf (buildEngine ops) w d ∧ calculate_tf (buildEngine ops) w d ≤ 1 ∧
    (∀ p, findPosting (postingsFor (buildEngine ops) w) d = some p →
      ∃ n, assocLookup (buildEngine ops).doc_word_counts d = some n ∧
        p.positions.length ≤ n) := by
  have hWF := WF_buildEngine ops
  have key : ∀ p, findPosting (postingsFor (buildEngine ops) w) d = some p →
      ∃ n, assocLookup (buildEngine ops).doc_word_counts d = some n ∧
        p.positions.length ≤ n := by
    intro p hp
    obtain ⟨hmem, hid⟩ := findPosting_mem hp
    obtain ⟨n, hn1, hn2⟩ := hWF.posting_wc w p hmem
    rw [hid] at hn1
    exact ⟨n, hn1, hn2⟩
  refine ⟨calculate_tf_nonneg _ _ _, ?_, key⟩
  simp only [calculate_tf]
  split
  case isTrue htot =>
    rw [div_le_one (by exact_mod_cast htot)]
    cases hfp : findPosting (postingsFor (buildEngine ops) w) d with
    | none =>
      have hz : occCount (buildEngine ops) w d = 0 := by simp [occCount, hfp]
      rw [hz]
      exact_mod_cast Nat.zero_le _
    | some p =>
      obtain ⟨n, hn1, hn2⟩ := key p hfp
      have hocc : occCount (buildEngine ops) w d = p.positions.length := by
        simp [occCount, hfp]
      rw [hocc, hn1, Option.getD_some]
      exact_mod_cast hn2
  case isFalse htot => norm_num

/-- C5 witness: concrete engine where term a occurs twice in a three-word
document, with the posting length bounded by the stored word count. -/
theorem searchEngine_C5_witness :
    ∃ n, assocLookup (buildEngine [("t", "a b a")]).doc_word_counts 1 = some n ∧
      (Posting.mk 1 [0, 2]).positions.length ≤ n :=
  (searchEngine_C5 [("t", "a b a")] "a" 1).2.2 (Posting.mk 1 [0, 2]) (by decide)

/-- C6: `search` and `get_stats` never write the engine state, so calling
either twice in a row with the same arguments yields identical results. -/
theorem searchEngine_C6 (s : EngineState) (q : String) (k : Int) :
    (searchOp ((searchOp s q k).2) q k).1 = (searchOp s q k).1 ∧
    (get_statsOp ((get_statsOp s).2)).1 = (get_statsOp s).1 :=
  ⟨rfl, rfl⟩

/-- C7: the result sequence of `search` is sorted by descending (rounded)
score: no later result scores strictly more than an earlier one. -/
theorem searchEngine_C7 (s : EngineState) (q : String) (k : Int) :
    List.Pairwise (fun a b => b.score ≤ a.score) (search s q k) := by
  by_cases h1 : tokenize q = []
  · rw [search_eq_empty_of_no_words s q k h1]
    exact List.Pairwise.nil
  by_cases h2 : candidateDocs s (tokenize q) = []
  · rw [search_eq_empty_of_no_cands s q k h2]
    exact List.Pairwise.nil
  rw [search_eq_of_ne s q k h1 h2]
  have hpair : List.Pairwise (fun a b : Nat × ℝ => b.2 ≤ a.2)
      (pySlice k (List.mergeSort ((candidateDocs s (tokenize q)).map
        (fun d => (d, docScore s (tokenize q) d))) scoreDesc)) := by
    apply List.Pairwise.sublist (pySlice_sublist k _)
    have htrans : ∀ a b c : Nat × ℝ, scoreDesc a b → scoreDesc b c → scoreDesc a c := by
      intro a b c hab hbc
      simp only [scoreDesc, decide_eq_true_eq] at hab hbc ⊢
      exact le_trans hbc hab
    have htotal : ∀ a b : Nat × ℝ, scoreDesc a b || scoreDesc b a := by
      intro a b
      simp only [scoreDesc, Bool.or_eq_true, decide_eq_true_eq]
      exact le_total b.2 a.2
    have hs := List.sorted_mergeSort htrans htotal
      ((candidateDocs s (tokenize q)).map (fun d => (d, docScore s (tokenize q) d)))
    exact hs.imp (fun h => by simpa [scoreDesc, decide_eq_true_eq] using h)
  exact List.Pairwise.map _ (fun a b hab => pyRound_mono 4 hab) hpair

/-- C9: document ids are assigned sequentially from 1, a new `add_document`
only appends (existing records are never reassigned), and
`get_all_documents` returns the records in strictly ascending id order. -/
theorem searchEngine_C9 (ops : List (String × String)) (title content : String) :
    (buildEngine ops).documents.map Prod.fst
        = List.range' 1 (buildEngine ops).documents.length ∧
    (buildEngine ops).next_doc_id = (buildEngine ops).documents.length + 1 ∧
    (add_document (buildEngine ops) title content).2.documents
        = (buildEngine ops).documents
          ++ [((buildEngine ops).next_doc_id,
               Document.mk (buildEngine ops).next_doc_id title content)] ∧
    List.Pairwise (fun a b => a.id < b.id) (get_all_documents (buildEngine ops)) := by
  have hWF := WF_buildEngine ops
  refine ⟨hWF.doc_keys, hWF.next_id, rfl, ?_⟩
  have hkeys : List.Pairwise (fun a b : Nat × Document => a.1 < b.1)
      (buildEngine ops).documents := by
    have h1 : List.Pairwise (fun a b : Nat => a < b)
        ((buildEngine ops).documents.map Prod.fst) := by
      rw [hWF.doc_keys]
      exact List.pairwise_lt_range' 1 _
    rwa [List.pairwise_map] at h1
  have hids : List.Pairwise (fun a b : Nat × Document => a.2.id < b.2.id)
      (buildEngine ops).documents := by
    apply List.Pairwise.imp_of_mem ?_ hkeys
    intro a b ha hb hab
    rw [hWF.doc_ids a ha, hWF.doc_ids b hb]
    exact hab
  exact List.Pairwise.map _ (fun a b h => h) hids

/-- C10: term document-frequency never exceeds the document count, `_calculate_idf`
is never negative, and every score in a search result sequence is nonnegative. -/
theorem searchEngine_C10 (ops : List (String × String)) (w : String)
    (q : String) (k : Int) :
    dfOf (buildEngine ops) w ≤ (buildEngine ops).documents.length ∧
    0 ≤ calculate_idf (buildEngine ops) w ∧
    List.Forall (fun r => 0 ≤ r.score) (search (buildEngine ops) q k) := by
  have hWF := WF_buildEngine ops
  refine ⟨hWF.df_le w, calculate_idf_nonneg _ hWF w, ?_⟩
  rw [List.forall_iff_forall_mem]
  intro r hr
  obtain ⟨d, hd, hrEq⟩ := mem_search hr
  rw [hrEq]
  show 0 ≤ pyRound 4 (docScore (buildEngine ops) (tokenize q) d)
  exact pyRound_nonneg 4 (docScore_nonneg _ hWF _ _)

/-! ### Tokenizer lemmas for whitespace-only content -/

theorem pyLower_eq_of_space {c : Char} (h : isPySpace c = true) : pyLower c = c := by
  simp only [isPySpace, Bool.or_eq_true, beq_iff_eq] at h
  rcases h with ((((h | h) | h) | h) | h) | h <;> subst h <;> decide

theorem clean_eq_of_space {c : Char} (h : isPySpace c = true) :
    (if isKept c || isPySpace c then c else ' ') = c := by
  rw [h]
  simp

theorem splitWords_all_space (l : List Char) (h : ∀ c ∈ l, isPySpace c = true) :
    splitWords l [] = [] := by
  induction l with
  | nil => rfl
  | cons c cs ih =>
    have hc : isPySpace c = true := h c (List.mem_cons_self _ _)
    show splitWords (c :: cs) [] = []
    rw [splitWords]
    simp only [hc, List.isEmpty_nil, if_true]
    exact ih (fun c2 hc2 => h c2 (List.mem_cons_of_mem _ hc2))

theorem tokenize_all_space (text : String) (h : ∀ c ∈ text.toList, isPySpace c = true) :
    tokenize text = [] := by
  unfold tokenize
  apply splitWords_all_space
  intro c hc
  simp only [List.mem_map] at hc
  obtain ⟨c0, hEx, hceq⟩ := hc
  obtain ⟨a, ha, haeq⟩ := hEx
  have hsp : isPySpace a = true := h a ha
  have hc0a : c0 = a := by rw [← haeq, pyLower_eq_of_space hsp]
  subst hc0a
  rw [← hceq, clean_eq_of_space hsp]
  exact hsp

/-- C8: `add_document` records the new document word count as exactly the
length of the tokenized content; content that tokenizes to nothing leaves the
inverted index and the frequency table untouched; whitespace-only content
tokenizes to nothing. -/
theorem searchEngine_C8 (ops : List (String × String)) (title content : String) :
    assocLookup (add_document (buildEngine ops) title content).2.doc_word_counts
        (add_document (buildEngine ops) title content).1
      = some (tokenize content).length ∧
    (tokenize content = [] →
      (add_document (buildEngine ops) title content).2.inverted_index
          = (buildEngine ops).inverted_index ∧
      (add_document (buildEngine ops) title content).2.word_doc_frequency
          = (buildEngine ops).word_doc_frequency) ∧
    ((∀ c ∈ content.toList, isPySpace c = true) → tokenize content = []) := by
  have hWF := WF_buildEngine ops
  have hwcnone : assocLookup (buildEngine ops).doc_word_counts
      (buildEngine ops).next_doc_id = none := by
    rw [assocLookup_eq_none, hWF.wc_keys]
    simp only [List.mem_range']
    rintro ⟨i, hi, hEq⟩
    have := hWF.next_id
    omega
  refine ⟨?_, ?_, tokenize_all_space content⟩
  · show assocLookup ((buildEngine ops).doc_word_counts
        ++ [((buildEngine ops).next_doc_id, (tokenize content).length)])
        (buildEngine ops).next_doc_id = some (tokenize content).length
    rw [assocLookup_append, hwcnone]
    simp [assocLookup]
  · intro h
    constructor
    · show (processWords (buildEngine ops).next_doc_id (tokenize content) 0 []
          (buildEngine ops).inverted_index (buildEngine ops).word_doc_frequency).1
        = (buildEngine ops).inverted_index
      rw [h]
      rfl
    · show (processWords (buildEngine ops).next_doc_id (tokenize content) 0 []
          (buildEngine ops).inverted_index (buildEngine ops).word_doc_frequency).2
        = (buildEngine ops).word_doc_frequency
      rw [h]
      rfl

/-- C8 witness: ingesting a single-space document records word count 0 and
leaves the index untouched. -/
theorem searchEngine_C8_witness :
    assocLookup (add_document (buildEngine []) "t" " ").2.doc_word_counts
        (add_document (buildEngine []) "t" " ").1 = some (tokenize " ").length ∧
    (add_document (buildEngine []) "t" " ").2.inverted_index
        = (buildEngine []).inverted_index ∧
    tokenize " " = [] :=
  ⟨(searchEngine_C8 [] "t" " ").1,
   ((searchEngine_C8 [] "t" " ").2.1 (by decide)).1,
   (searchEngine_C8 [] "t" " ").2.2 (by decide)⟩

/-! ### IDF lemmas for C3 -/

theorem idfValue_anti (N : Nat) {df1 df2 : Nat} (h1 : 1 ≤ df1) (h2 : df1 ≤ df2) :
    idfValue N df2 ≤ idfValue N df1 := by
  unfold idfValue
  by_cases hN : N = 0
  · simp [hN]
  have hdf1 : ¬ df1 = 0 := by omega
  have hdf2 : ¬ df2 = 0 := by omega
  simp only [if_neg hN, if_neg hdf1, if_neg hdf2]
  have hd1pos : (0:ℝ) < (df1 : ℝ) := by exact_mod_cast Nat.pos_of_ne_zero hdf1
  have hNpos : (0:ℝ) < (N : ℝ) := by exact_mod_cast Nat.pos_of_ne_zero hN
  have hcast : (df1 : ℝ) ≤ (df2 : ℝ) := by exact_mod_cast h2
  exact Real.log_le_log (by positivity)
    (div_le_div_of_nonneg_left hNpos.le hd1pos hcast)

theorem idfValue_self (N : Nat) : idfValue N N = 0 := by
  unfold idfValue
  by_cases hN : N = 0
  · simp [hN]
  rw [if_neg hN, if_neg hN,
    div_self (by exact_mod_cast hN : (N:ℝ) ≠ 0), Real.log_one]

/-- C3 counterexample: two reachable engines with the same total document
count 2, where the document frequency of term a rises from 0 to 1 and
`_calculate_idf` strictly increases (0 to ln 2), refuting monotone
non-increase across `df = 0`. -/
theorem searchEngine_C3_counterexample :
    (buildEngine [("x", "b d"), ("y", "c")]).documents.length = 2 ∧
    (buildEngine [("x", "a b"), ("y", "c")]).documents.length = 2 ∧
    dfOf (buildEngine [("x", "b d"), ("y", "c")]) "a" = 0 ∧
    dfOf (buildEngine [("x", "a b"), ("y", "c")]) "a" = 1 ∧
    calculate_idf (buildEngine [("x", "b d"), ("y", "c")]) "a"
      < calculate_idf (buildEngine [("x", "a b"), ("y", "c")]) "a" := by
  refine ⟨by decide, by decide, by decide, by decide, ?_⟩
  have e1 : calculate_idf (buildEngine [("x", "b d"), ("y", "c")]) "a"
      = idfValue 2 0 := by
    have d1 : (buildEngine [("x", "b d"), ("y", "c")]).documents.length = 2 := by decide
    have d2 : dfOf (buildEngine [("x", "b d"), ("y", "c")]) "a" = 0 := by decide
    unfold calculate_idf
    rw [d1, d2]
  have e2 : calculate_idf (buildEngine [("x", "a b"), ("y", "c")]) "a"
      = idfValue 2 1 := by
    have d1 : (buildEngine [("x", "a b"), ("y", "c")]).documents.length = 2 := by decide
    have d2 : dfOf (buildEngine [("x", "a b"), ("y", "c")]) "a" = 1 := by decide
    unfold calculate_idf
    rw [d1, d2]
  rw [e1, e2]
  have h0 : idfValue 2 0 = 0 := by simp [idfValue]
  have h1 : idfValue 2 1 = Real.log 2 := by norm_num [idfValue]
  rw [h0, h1]
  exact Real.log_pos (by norm_num)

/-- C3 amended: `_calculate_idf` is the IDF formula applied to the document
count and document frequency; the formula is monotonically non-increasing in
the document frequency on the range `df ≥ 1` (for a fixed document count),
and equals 0 when the term appears in every document or in no document,
including when the document count is 0. -/
theorem searchEngine_C3_amended (s : EngineState) (w : String) (N df1 df2 : Nat)
    (h1 : 1 ≤ df1) (h2 : df1 ≤ df2) :
    calculate_idf s w = idfValue s.documents.length (dfOf s w) ∧
    idfValue N df2 ≤ idfValue N df1 ∧
    idfValue N N = 0 ∧ idfValue N 0 = 0 :=
  ⟨rfl, idfValue_anti N h1 h2, idfValue_self N, by simp [idfValue]⟩

/-- C3 amended witness: instantiated at document count 2 and frequencies 1, 2. -/
theorem searchEngine_C3_amended_witness :
    (1:Nat) ≤ 1 ∧ (1:Nat) ≤ 2 ∧ idfValue 2 2 ≤ idfValue 2 1 :=
  ⟨le_refl 1, by norm_num,
   (searchEngine_C3_amended initState "a" 2 1 2 (le_refl 1) (by norm_num)).2.1⟩

/-- C1 counterexample: with two candidate documents, `search` with
`top_k = -1` returns a non-empty result sequence: the Python slice
`sorted_docs[:top_k]` drops entries from the end instead of yielding `[]`. -/
theorem searchEngine_C1_counterexample :
    ((-1 : Int) ≤ 0) ∧
    search (buildEngine [("x", "a b"), ("y", "a c")]) "a" (-1) ≠ [] := by
  refine ⟨by norm_num, ?_⟩
  have h1 : tokenize "a" ≠ [] := by decide
  have h2 : candidateDocs (buildEngine [("x", "a b"), ("y", "a c")]) (tokenize "a")
      ≠ [] := by decide
  have hn : (candidateDocs (buildEngine [("x", "a b"), ("y", "a c")])
      (tokenize "a")).length = 2 := by decide
  have hlen := search_length (buildEngine [("x", "a b"), ("y", "a c")]) "a" (-1) h1 h2
  rw [hn, if_neg (by norm_num : ¬ (0:Int) ≤ (-1:Int))] at hlen
  have htn : ((-(-1:Int)).toNat) = 1 := by decide
  rw [htn] at hlen
  intro hc
  rw [hc] at hlen
  simp at hlen

/-- C1 amended: `search` returns at most `top_k` results when `top_k > 0`,
returns an empty sequence when `top_k = 0` (a negative `top_k` instead drops
that many results from the end of the ranking), and every returned result is
a stored document whose content contains at least one tokenized query term. -/
theorem searchEngine_C1_amended (ops : List (String × String)) (q : String) (k : Int) :
    (0 < k → (search (buildEngine ops) q k).length ≤ k.toNat) ∧
    (k = 0 → search (buildEngine ops) q k = []) ∧
    List.Forall (fun r => ∃ w, w ∈ tokenize q ∧
        ∃ d, assocLookup (buildEngine ops).documents r.id = some d ∧
          w ∈ tokenize d.content) (search (buildEngine ops) q k) := by
  have hWF := WF_buildEngine ops
  refine ⟨?_, ?_, ?_⟩
  · intro hk
    by_cases h1 : tokenize q = []
    · rw [search_eq_empty_of_no_words _ _ _ h1]
      simp
    by_cases h2 : candidateDocs (buildEngine ops) (tokenize q) = []
    · rw [search_eq_empty_of_no_cands _ _ _ h2]
      simp
    rw [search_length _ _ _ h1 h2, if_pos (le_of_lt hk)]
    exact min_le_left _ _
  · intro hk
    subst hk
    by_cases h1 : tokenize q = []
    · exact search_eq_empty_of_no_words _ _ _ h1
    by_cases h2 : candidateDocs (buildEngine ops) (tokenize q) = []
    · exact search_eq_empty_of_no_cands _ _ _ h2
    have hlen := search_length (buildEngine ops) q 0 h1 h2
    rw [if_pos (le_refl (0:Int))] at hlen
    simp only [Int.toNat_zero, Nat.zero_min, Nat.min_zero] at hlen
    exact List.length_eq_zero.mp hlen
  · rw [List.forall_iff_forall_mem]
    intro r hr
    obtain ⟨d, hd, hrEq⟩ := mem_search hr
    obtain ⟨w, hw, p, hp, hpd⟩ := mem_candidateDocs hd
    obtain ⟨doc, hdoc1, hdoc2⟩ := hWF.posting_doc w p hp
    refine ⟨w, hw, doc, ?_, hdoc2⟩
    have hrid : r.id = d := by rw [hrEq]; rfl
    rw [hrid, ← hpd]
    exact hdoc1

/-- C1 amended witness: on a two-document engine, `top_k = 1` returns at most
one result and `top_k = 0` returns none. -/
theorem searchEngine_C1_amended_witness :
    (search (buildEngine [("x", "a b"), ("y", "a c")]) "a" 1).length ≤ (1:Int).toNat ∧
    search (buildEngine [("x", "a b"), ("y", "a c")]) "a" 0 = [] :=
  ⟨(searchEngine_C1_amended [("x", "a b"), ("y", "a c")] "a" 1).1 (by norm_num),
   (searchEngine_C1_amended [("x", "a b"), ("y", "a c")] "a" 0).2.1 rfl⟩

end SearchEngineModel
